import Mathlib

/-!
Verification development for the event-driven macro-indicator alignment
scripts (GDP_Data.py, cpi_inflation_hourly.py, ppi_inflation_hourly.py,
nfp_hourly.py, fomc_rate_hourly.py, news_data.py).

Instants are modelled as absolute minutes: `dayNumber y m d * 1440 + 60*hh + mi`
plus the minutes offset of the America/New_York civil timezone.  This is an
order-isomorphic image of the UTC timestamps the Python code manipulates.
The aligners are modelled over abstract integer instants and a generic value
type, exactly as they treat their pandas inputs.
-/

/-- Civil date to day number (days since 0000-03-01 era origin), following the
standard era/year-of-era/day-of-year computation used by civil-calendar
libraries.  `dayNumber 1970 1 1 = 719468`; valid for years `≥ 1` and months
`1..12`; linear in `d`, so `d` past the end of the month spills into the next
month (only days inside the month are ever used by the scripts). -/
def dayNumber (y m d : Nat) : Nat :=
  let y2 := if m ≤ 2 then y - 1 else y
  let era := y2 / 400
  let yoe := y2 - era * 400
  let mp := if m ≤ 2 then m + 9 else m - 3
  let doy := (153 * mp + 2) / 5 + d - 1
  let doe := yoe * 365 + yoe / 4 - yoe / 100 + doy
  era * 146097 + doe

/-- `datetime.weekday()` of Python: Monday = 0, ..., Saturday = 5, Sunday = 6. -/
def pyWeekday (y m d : Nat) : Nat := (dayNumber y m d + 2) % 7

/-- Day of the second Sunday of March of year `y` (US DST start, post-2007 rules). -/
def secondSundayMarch (y : Nat) : Nat := 8 + (13 - pyWeekday y 3 8) % 7

/-- Day of the first Sunday of November of year `y` (US DST end, post-2007 rules). -/
def firstSundayNov (y : Nat) : Nat := 1 + (13 - pyWeekday y 11 1) % 7

/-- Whether the America/New_York civil time `y-m-d hh:mi` is on daylight saving
time (post-2007 US rules, which cover every date this repository processes);
on the fall-back day, times in the ambiguous hour take the pre-transition
(daylight) offset, matching `zoneinfo` with `fold=0`. -/
def isNYDst (y m d hh mi : Nat) : Bool :=
  if m < 3 then false
  else if 11 < m then false
  else if m = 3 then
    if secondSundayMarch y < d then true
    else if d = secondSundayMarch y then decide (120 ≤ hh * 60 + mi)
    else false
  else if m = 11 then
    if d < firstSundayNov y then true
    else if d = firstSundayNov y then decide (hh * 60 + mi < 120)
    else false
  else true

/-- Minutes offset to add to an America/New_York civil time to obtain UTC
(240 during daylight saving, 300 otherwise). -/
def nyOffsetMin (y m d hh mi : Nat) : Nat :=
  if isNYDst y m d hh mi then 240 else 300

/-- Absolute UTC instant (in minutes) of the America/New_York civil time
`y-m-d hh:mi`; models `datetime(y, m, d, hh, mi, tzinfo=ZoneInfo("America/New_York"))
.astimezone(ZoneInfo("UTC"))` from the scripts. -/
def nyToUtcMinutes (y m d hh mi : Nat) : Nat :=
  dayNumber y m d * 1440 + hh * 60 + mi + nyOffsetMin y m d hh mi

/-- The `while release_dt_local.weekday() >= 5: release_day += 1` loop of
`get_cpi_release_schedule` / `get_ppi_release_schedule`, with explicit fuel
(the loop runs at most twice; fuel 7 is ample and is proved irrelevant). -/
def rollOffWeekend : Nat → Nat → Nat → Nat → Nat
  | 0, _, _, d => d
  | fuel + 1, y, m, d =>
    if 5 ≤ pyWeekday y m d then rollOffWeekend fuel y m (d + 1) else d

/-- Weekend shift used by the CPI and PPI schedulers. -/
def shiftToWeekday (y m d : Nat) : Nat := rollOffWeekend 7 y m d

/-- The `while release_dt.weekday() != 4: release_dt += 1 day` loop of
`get_nfp_release_schedule`, with explicit fuel (at most six steps from day 1). -/
def rollToFriday : Nat → Nat → Nat → Nat → Nat
  | 0, _, _, d => d
  | fuel + 1, y, m, d =>
    if pyWeekday y m d = 4 then d else rollToFriday fuel y m (d + 1)

/-- Release instant for one CPI observation dated in month `(y, m)`:
month + 1 (13 rolls to January of the next year), target day 10 shifted off
weekends, 08:30 America/New_York, converted to UTC.
Body of the loop of `get_cpi_release_schedule` (cpi_inflation_hourly.py). -/
def cpi_release_for (y m : Nat) : Nat :=
  let ry := if m + 1 = 13 then y + 1 else y
  let rm := if m + 1 = 13 then 1 else m + 1
  nyToUtcMinutes ry rm (shiftToWeekday ry rm 10) 8 30

/-- `get_cpi_release_schedule` (cpi_inflation_hourly.py): one release instant
per observation, in input order.  An observation is represented by the only
fields the code reads: `(date.year, date.month)`. -/
def get_cpi_release_schedule (obs : List (Nat × Nat)) : List Nat :=
  obs.map (fun p => cpi_release_for p.1 p.2)

/-- Release instant for one PPI observation: as CPI but with target day 14.
Body of the loop of `get_ppi_release_schedule` (ppi_inflation_hourly.py). -/
def ppi_release_for (y m : Nat) : Nat :=
  let ry := if m + 1 = 13 then y + 1 else y
  let rm := if m + 1 = 13 then 1 else m + 1
  nyToUtcMinutes ry rm (shiftToWeekday ry rm 14) 8 30

/-- `get_ppi_release_schedule` (ppi_inflation_hourly.py). -/
def get_ppi_release_schedule (obs : List (Nat × Nat)) : List Nat :=
  obs.map (fun p => ppi_release_for p.1 p.2)

/-- Release instant for one NFP observation: month + 1 (with year roll),
advance from day 1 to the first Friday, 08:30 America/New_York, to UTC.
Body of the loop of `get_nfp_release_schedule` (nfp_hourly.py). -/
def nfp_release_for (y m : Nat) : Nat :=
  let ry := if m + 1 = 13 then y + 1 else y
  let rm := if m + 1 = 13 then 1 else m + 1
  nyToUtcMinutes ry rm (rollToFriday 7 ry rm 1) 8 30

/-- `get_nfp_release_schedule` (nfp_hourly.py). -/
def get_nfp_release_schedule (obs : List (Nat × Nat)) : List Nat :=
  obs.map (fun p => nfp_release_for p.1 p.2)

/-- The loop of `get_fomc_decision_times` (fomc_rate_hourly.py): walks the
daily rate series carrying `prev_rate` (updated only when an event is
emitted), and emits `(14:00 America/New_York on that date as UTC, rate)`
when `prev_rate is None or rate != prev_rate`.  Dates are `(y, m, d)`. -/
def fomcLoop {α : Type} [DecidableEq α] :
    Option α → List ((Nat × Nat × Nat) × α) → List (Nat × α)
  | _, [] => []
  | prev, (dt, r) :: rest =>
    if prev = none ∨ ¬ prev = some r then
      (nyToUtcMinutes dt.1 dt.2.1 dt.2.2 14 0, r) :: fomcLoop (some r) rest
    else
      fomcLoop prev rest

/-- `get_fomc_decision_times` (fomc_rate_hourly.py). -/
def get_fomc_decision_times {α : Type} [DecidableEq α]
    (series : List ((Nat × Nat × Nat) × α)) : List (Nat × α) :=
  fomcLoop none series

-- Sanity checks of the calendar arithmetic (fixed known dates).
example : dayNumber 1970 1 1 = 719468 := by decide
example : pyWeekday 1970 1 1 = 3 := by decide
example : pyWeekday 2023 6 10 = 5 := by decide
example : pyWeekday 2023 4 10 = 0 := by decide
example : pyWeekday 2024 1 5 = 4 := by decide
example : secondSundayMarch 2023 = 12 := by decide
example : firstSundayNov 2023 = 5 := by decide
example : isNYDst 2023 6 10 8 30 = true := by decide
example : isNYDst 2023 2 10 8 30 = false := by decide
example : shiftToWeekday 2023 6 10 = 12 := by decide

/-!
## Event aligners

The four interval-based aligners (`align_cpi_to_hours`, `align_nfp_to_hours`,
`align_ppi_to_hours`, `align_rate_to_hours`) share the same loop: an output
column starts fully absent; for each event `i` the rows with
`release_i ≤ t < release_{i+1}` (last event: `< hourly_index[-1] + 1h`) are
assigned event `i`'s value; then the column is forward-filled (CPI/NFP/PPI)
or backward-filled (FOMC).  The timeline and events are abstract instants in
`Int` (minutes, so one hour is 60) and an abstract value type, the only
structure the code relies on.  Reading `hourly_index[-1]` on an empty index
raises `IndexError`; this partiality is modelled by `Option`.
-/

/-- One `df.loc[(df.index >= rel) & (df.index < next), col] = v` step. -/
def maskAssign {α : Type} (rel next : Int) (v : α)
    (col : List (Int × Option α)) : List (Int × Option α) :=
  col.map (fun p => if rel ≤ p.1 ∧ p.1 < next then (p.1, some v) else p)

/-- The `for i, rel_time in enumerate(release_datetimes)` loop: each event's
interval is bounded by the next event's instant, the last by `lastEnd`
(`hourly_index[-1] + 1 hour`). -/
def intervalLoop {α : Type} :
    List (Int × α) → Int → List (Int × Option α) → List (Int × Option α)
  | [], _, col => col
  | (rel, v) :: rest, lastEnd, col =>
    let next := match rest with
      | [] => lastEnd
      | (r2, _) :: _ => r2
    intervalLoop rest lastEnd (maskAssign rel next v col)

/-- `fillna(method='ffill')` on the value column, carrying the last seen value. -/
def ffillLoop {α : Type} : Option α → List (Int × Option α) → List (Int × Option α)
  | _, [] => []
  | carry, (t, none) :: rest => (t, carry) :: ffillLoop carry rest
  | _, (t, some v) :: rest => (t, some v) :: ffillLoop (some v) rest

/-- `fillna(method='ffill')`. -/
def ffillCol {α : Type} (col : List (Int × Option α)) : List (Int × Option α) :=
  ffillLoop none col

/-- `fillna(method='bfill')`: each absent row takes the next present value. -/
def bfillCol {α : Type} (col : List (Int × Option α)) : List (Int × Option α) :=
  (ffillLoop none col.reverse).reverse

/-- Shared interval-assignment core of the four aligners, before the fill
step.  `none` models the `IndexError` from `hourly_index[-1]` when the
timeline is empty but at least one event exists; with no events the loop
body never runs and the all-absent column is returned. -/
def alignCore {α : Type} (events : List (Int × α)) (timeline : List Int) :
    Option (List (Int × Option α)) :=
  match events with
  | [] => some (timeline.map (fun t => (t, (none : Option α))))
  | _ :: _ =>
    match timeline.getLast? with
    | none => none
    | some lastT =>
      some (intervalLoop events (lastT + 60) (timeline.map (fun t => (t, none))))

/-- `align_cpi_to_hours` (cpi_inflation_hourly.py): interval assignment then
forward fill.  `events` is the zip of `get_cpi_release_schedule`'s instants
with the observation values, exactly as the loop consumes them. -/
def align_cpi_to_hours {α : Type} (events : List (Int × α)) (timeline : List Int) :
    Option (List (Int × Option α)) :=
  (alignCore events timeline).map ffillCol

/-- `align_nfp_to_hours` (nfp_hourly.py): same algorithm as the CPI aligner. -/
def align_nfp_to_hours {α : Type} (events : List (Int × α)) (timeline : List Int) :
    Option (List (Int × Option α)) :=
  (alignCore events timeline).map ffillCol

/-- `align_ppi_to_hours` (ppi_inflation_hourly.py): same algorithm as the CPI
aligner. -/
def align_ppi_to_hours {α : Type} (events : List (Int × α)) (timeline : List Int) :
    Option (List (Int × Option α)) :=
  (alignCore events timeline).map ffillCol

/-- `align_rate_to_hours` (fomc_rate_hourly.py): interval assignment then
backward fill of the lead-in period. -/
def align_rate_to_hours {α : Type} (events : List (Int × α)) (timeline : List Int) :
    Option (List (Int × Option α)) :=
  (alignCore events timeline).map bfillCol

/-- `pd.merge_asof(..., direction="backward")` lookup: the value of the last
listed event with instant `≤ t` (for ascending events, the greatest such). -/
def asofFold {α : Type} (events : List (Int × α)) (t : Int) : Option α :=
  events.foldl (fun acc e => if e.1 ≤ t then some e.2 else acc) none

/-- `align_to_hourly` (GDP_Data.py): sorts both inputs ascending
(`sort_values`), takes the latest release at or before each hour
(`merge_asof`, backward), then `ffill().bfill()`. -/
def align_to_hourly {α : Type} (events : List (Int × α)) (timeline : List Int) :
    List (Int × Option α) :=
  let tl := timeline.mergeSort (fun a b => decide (a ≤ b))
  let ev := events.mergeSort (fun a b => decide (a.1 ≤ b.1))
  bfillCol (ffillCol (tl.map (fun t => (t, asofFold ev t))))

/-!
## Sentiment aggregator (news_data.py, `aggregate_to_hourly`)

Article rows carry a UTC publication minute, an optional url and three
optional sentiment scores (`parse_news_feed` stores `None` where the feed
lacks a field).  The pipeline groups by ticker, resamples to one-hour
buckets (mean of each score over the bucket's non-null values, count of
non-null urls), reindexes each ticker's table onto the full hourly grid
built from the requested start/end instants, fills the count column's holes
with 0 and leaves the mean columns absent.
-/

structure NewsRow where
  ticker : String
  time_published : Nat
  url : Option String
  overall_sentiment_score : Option ℚ
  ticker_sentiment_score : Option ℚ
  ticker_relevance_score : Option ℚ
deriving DecidableEq

structure HourlyRow where
  Datetime : Nat
  ticker : String
  news_count : Nat
  overall_sentiment_mean : Option ℚ
  ticker_sentiment_mean : Option ℚ
  ticker_relevance_mean : Option ℚ
deriving DecidableEq

/-- Hourly bucket of an instant (floor to the hour), as `resample("1H")`
buckets timestamps. -/
def floorHour (t : Nat) : Nat := 60 * (t / 60)

/-- pandas `mean`: arithmetic mean of the present values, absent if none. -/
def meanOpt (vs : List ℚ) : Option ℚ :=
  if vs.length = 0 then none else some (vs.sum / (vs.length : ℚ))

/-- The records of one ticker falling in the hour bucket `h`. -/
def bucketRows (rows : List NewsRow) (tk : String) (h : Nat) : List NewsRow :=
  rows.filter (fun r => r.ticker = tk ∧ floorHour r.time_published = h)

/-- Aggregate of one (ticker, hour) bucket: count of non-null urls
(`.agg({"url": "count"})`), mean over present values of each score column. -/
def aggCell (rows : List NewsRow) (tk : String) (h : Nat) : HourlyRow :=
  let rs := bucketRows rows tk h
  { Datetime := h
    ticker := tk
    news_count := (rs.filter (fun r => r.url.isSome)).length
    overall_sentiment_mean := meanOpt (rs.filterMap (fun r => r.overall_sentiment_score))
    ticker_sentiment_mean := meanOpt (rs.filterMap (fun r => r.ticker_sentiment_score))
    ticker_relevance_mean := meanOpt (rs.filterMap (fun r => r.ticker_relevance_score)) }

/-- `pd.date_range(s, e, freq="1H")` for hour-aligned `s`, `e`: empty when
`e < s`, else `s, s+60, ..., ≤ e`. -/
def hourRange (s e : Nat) : List Nat :=
  if e < s then [] else (List.range ((e - s) / 60 + 1)).map (fun k => s + 60 * k)

def natMinList : List Nat → Nat
  | [] => 0
  | x :: xs => xs.foldl min x

def natMaxList (xs : List Nat) : Nat := xs.foldl max 0

/-- `df.groupby("ticker").resample("1H")` for one ticker: buckets from the
floor of the ticker's earliest timestamp to the floor of its latest, each
aggregated; no rows if the ticker has no records. -/
def resampleTicker (rows : List NewsRow) (tk : String) : List (Nat × HourlyRow) :=
  let ts := (rows.filter (fun r => r.ticker = tk)).map (fun r => r.time_published)
  if ts.isEmpty then []
  else
    (hourRange (floorHour (natMinList ts)) (floorHour (natMaxList ts))).map
      (fun h => (h, aggCell rows tk h))

/-- `h_t.reindex(all_hours)` followed by `news_count.fillna(0)`: a grid hour
found in the resampled table keeps its row; a missing hour becomes count 0
with all means absent. -/
def reindexCell (tk : String)
    (tbl : List (Nat × HourlyRow)) (h : Nat) : HourlyRow :=
  match tbl.lookup h with
  | some c => c
  | none =>
    { Datetime := h, ticker := tk, news_count := 0
      overall_sentiment_mean := none
      ticker_sentiment_mean := none
      ticker_relevance_mean := none }

def insertSorted (a : String) : List String → List String
  | [] => [a]
  | b :: l => if a ≤ b then a :: b :: l else b :: insertSorted a l

def sortStrings (l : List String) : List String := l.foldr insertSorted []

/-- The distinct tickers of the grouped table, in sorted order
(`groupby` sorts its keys; `.unique()` preserves that order). -/
def uniqueTickers (rows : List NewsRow) : List String :=
  sortStrings ((rows.map (fun r => r.ticker)).eraseDups)

/-- `aggregate_to_hourly` (news_data.py): empty input short-circuits to an
empty table; otherwise one row per (ticker, grid hour), the grid running
from the floor of `startDt` to the floor of `endDt`. -/
def aggregate_to_hourly (rows : List NewsRow) (startDt endDt : Nat) : List HourlyRow :=
  if rows.isEmpty then []
  else
    (uniqueTickers rows).flatMap (fun tk =>
      (hourRange (floorHour startDt) (floorHour endDt)).map
        (fun h => reindexCell tk (resampleTicker rows tk) h))

-- Sanity checks of the aligners on the spec's worked example, restated in
-- minutes relative to an arbitrary origin: events at 100 and 200, timeline
-- 0 / 150 / 400; forward-only fill gives [absent, v1, v2], backward fill
-- gives [v1, v1, v2].
example :
    align_cpi_to_hours [((100 : Int), (1 : Int)), (200, 2)] [0, 150, 400] =
      some [(0, none), (150, some 1), (400, some 2)] := by decide
example :
    align_rate_to_hours [((100 : Int), (1 : Int)), (200, 2)] [0, 150, 400] =
      some [(0, some 1), (150, some 1), (400, some 2)] := by decide
example : align_cpi_to_hours [((100 : Int), (1 : Int))] [] = none := by decide
example :
    align_rate_to_hours [((600 : Int), (1 : Int)), (1200, 2)] [0, 1200] =
      some [(0, some 2), (1200, some 2)] := by decide

/-!
## Aligner lemmas

`slotValue` is the per-row view of `intervalLoop`; for an ascending event
sequence, a row at instant `t` strictly before the final interval bound ends
up holding exactly the as-of value `asofLast events t`.
-/

/-- Per-slot view of `intervalLoop`: the final value of the row at instant
`t` after all interval assignments, starting from `cur`. -/
def slotValue {α : Type} : List (Int × α) → Int → Int → Option α → Option α
  | [], _, _, cur => cur
  | (rel, v) :: rest, lastEnd, t, cur =>
    let next := match rest with
      | [] => lastEnd
      | (r2, _) :: _ => r2
    slotValue rest lastEnd t (if rel ≤ t ∧ t < next then some v else cur)

/-- The as-of value at `t`: value of the last listed event with instant
`≤ t` (for an ascending event sequence, the greatest such instant). -/
def asofLast {α : Type} (events : List (Int × α)) (t : Int) : Option α :=
  ((events.filter (fun e => decide (e.1 ≤ t))).getLast?).map (fun e => e.2)

theorem intervalLoop_eq_map {α : Type} :
    ∀ (events : List (Int × α)) (lastEnd : Int) (col : List (Int × Option α)),
      intervalLoop events lastEnd col =
        col.map (fun p => (p.1, slotValue events lastEnd p.1 p.2))
  | [], lastEnd, col => by
    simp [intervalLoop, slotValue]
  | (rel, v) :: rest, lastEnd, col => by
    simp only [intervalLoop, maskAssign]
    rw [intervalLoop_eq_map rest lastEnd, List.map_map]
    refine List.map_congr_left (fun p _ => ?_)
    simp only [Function.comp_apply, slotValue]
    by_cases h : rel ≤ p.1 ∧ p.1 < (match rest with | [] => lastEnd | (r2, _) :: _ => r2)
    · rw [if_pos h, if_pos h]
    · rw [if_neg h, if_neg h]

theorem slotValue_of_all_gt {α : Type} :
    ∀ (events : List (Int × α)) (lastEnd t : Int) (cur : Option α),
      (∀ e ∈ events, t < e.1) →
      slotValue events lastEnd t cur = cur
  | [], _, _, _, _ => rfl
  | (rel, v) :: rest, lastEnd, t, cur, h => by
    have h1 : t < rel := h (rel, v) (List.mem_cons_self _ _)
    simp only [slotValue]
    rw [if_neg (fun hc => absurd hc.1 (not_le.mpr h1))]
    exact slotValue_of_all_gt rest lastEnd t cur (fun e he => h e (List.mem_cons_of_mem _ he))

theorem slotValue_single {α : Type} (rel : Int) (v : α) (lastEnd t : Int)
    (cur : Option α) :
    slotValue [(rel, v)] lastEnd t cur =
      (if rel ≤ t ∧ t < lastEnd then some v else cur) := rfl

theorem slotValue_cons_cons {α : Type} (rel : Int) (v : α) (r2 : Int) (v2 : α)
    (rest2 : List (Int × α)) (lastEnd t : Int) (cur : Option α) :
    slotValue ((rel, v) :: (r2, v2) :: rest2) lastEnd t cur =
      slotValue ((r2, v2) :: rest2) lastEnd t
        (if rel ≤ t ∧ t < r2 then some v else cur) := rfl

theorem slotValue_eq_asofLast {α : Type} :
    ∀ (events : List (Int × α)) (lastEnd t : Int),
      events.Pairwise (fun a b => a.1 < b.1) →
      t < lastEnd →
      slotValue events lastEnd t none = asofLast events t
  | [], _, _, _, _ => rfl
  | (rel, v) :: rest, lastEnd, t, hp, hlt => by
    rcases List.pairwise_cons.mp hp with ⟨hhead, htail⟩
    by_cases hr : rel ≤ t
    · cases rest with
      | nil =>
        rw [slotValue_single, if_pos (And.intro hr hlt)]
        simp [asofLast, hr]
      | cons e2 rest2 =>
        obtain ⟨r2, v2⟩ := e2
        by_cases h2 : t < r2
        · have hall : ∀ e ∈ (r2, v2) :: rest2, t < e.1 := by
            intro e he
            rcases List.mem_cons.mp he with rfl | he2
            · exact h2
            · exact lt_of_lt_of_le h2
                (le_of_lt ((List.pairwise_cons.mp htail).1 e he2))
          rw [slotValue_cons_cons, if_pos (And.intro hr h2)]
          rw [slotValue_of_all_gt _ _ _ _ hall]
          have hfil : List.filter (fun e => decide (e.1 ≤ t)) ((r2, v2) :: rest2) = [] :=
            List.filter_eq_nil_iff.mpr (by
              intro e he
              simpa using not_le.mpr (hall e he))
          simp [asofLast, List.filter_cons, hr, hfil]
        · have h2' : r2 ≤ t := not_lt.mp h2
          have hcond : ¬ (rel ≤ t ∧ t < r2) := fun hc => h2 hc.2
          rw [slotValue_cons_cons, if_neg hcond]
          rw [slotValue_eq_asofLast ((r2, v2) :: rest2) lastEnd t htail hlt]
          simp only [asofLast, List.filter_cons, decide_eq_true_eq]
          rw [if_pos hr, if_pos h2']
          rw [List.getLast?_cons_cons]
    · have hall : ∀ e ∈ (rel, v) :: rest, t < e.1 := by
        intro e he
        rcases List.mem_cons.mp he with rfl | he2
        · exact not_le.mp hr
        · exact lt_trans (not_le.mp hr) (hhead e he2)
      rw [slotValue_of_all_gt _ _ _ _ hall]
      have hfil : List.filter (fun e => decide (e.1 ≤ t)) ((rel, v) :: rest) = [] :=
        List.filter_eq_nil_iff.mpr (by
          intro e he
          simpa using not_le.mpr (hall e he))
      simp [asofLast, hfil]

theorem mem_of_getLast?_eq {β : Type} :
    ∀ (l : List β) (z : β), l.getLast? = some z → z ∈ l
  | [], z, h => by simp at h
  | [a], z, h => by
    simp only [List.getLast?_singleton, Option.some.injEq] at h
    simp [h]
  | a :: b :: t, z, h => by
    rw [List.getLast?_cons_cons] at h
    exact List.mem_cons_of_mem _ (mem_of_getLast?_eq (b :: t) z h)

theorem le_getLast_of_sorted :
    ∀ (l : List Int) (z : Int), l.Pairwise (fun a b => a < b) →
      l.getLast? = some z → ∀ x ∈ l, x ≤ z
  | [], _, _, h, _, _ => by simp at h
  | [a], z, _, h, x, hx => by
    simp only [List.getLast?_singleton, Option.some.injEq] at h
    simp only [List.mem_singleton] at hx
    omega
  | a :: b :: t, z, hp, h, x, hx => by
    rw [List.getLast?_cons_cons] at h
    rcases List.pairwise_cons.mp hp with ⟨hhead, htail⟩
    rcases List.mem_cons.mp hx with rfl | hx2
    · have hz : z ∈ b :: t := mem_of_getLast?_eq _ _ h
      exact le_of_lt (hhead z hz)
    · exact le_getLast_of_sorted (b :: t) z htail h x hx2

/-- Last element of a list ascending in first components has the greatest
first component. -/
theorem fst_le_getLast_of_sorted {α : Type} :
    ∀ (l : List (Int × α)) (z : Int × α), l.Pairwise (fun a b => a.1 < b.1) →
      l.getLast? = some z → ∀ x ∈ l, x.1 ≤ z.1
  | [], _, _, h, _, _ => by simp at h
  | [a], z, _, h, x, hx => by
    simp only [List.getLast?_singleton, Option.some.injEq] at h
    simp only [List.mem_singleton] at hx
    subst h; subst hx; exact le_refl _
  | a :: b :: t, z, hp, h, x, hx => by
    rw [List.getLast?_cons_cons] at h
    rcases List.pairwise_cons.mp hp with ⟨hhead, htail⟩
    rcases List.mem_cons.mp hx with rfl | hx2
    · have hz : z ∈ b :: t := mem_of_getLast?_eq _ _ h
      exact le_of_lt (hhead z hz)
    · exact fst_le_getLast_of_sorted (b :: t) z htail h x hx2

/-- `alignCore` on ascending inputs computes exactly the as-of column:
each timeline instant is paired with the value of the event with the
greatest release instant `≤ t`, absent when no event qualifies. -/
theorem alignCore_eq {α : Type} (events : List (Int × α)) (timeline : List Int)
    (he : events.Pairwise (fun a b => a.1 < b.1))
    (ht : timeline.Pairwise (fun a b => a < b))
    (hne : timeline ≠ [] ∨ events = []) :
    alignCore events timeline =
      some (timeline.map (fun t => (t, asofLast events t))) := by
  cases events with
  | nil => simp [alignCore, asofLast]
  | cons e es =>
    have htl : timeline ≠ [] := by
      rcases hne with h | h
      · exact h
      · exact absurd h (by simp)
    obtain ⟨lastT, hlast⟩ : ∃ lastT, timeline.getLast? = some lastT := by
      cases hg : timeline.getLast? with
      | none => exact absurd (List.getLast?_eq_none_iff.mp hg) htl
      | some z => exact ⟨z, rfl⟩
    show (match timeline.getLast? with
      | none => none
      | some lastT =>
        some (intervalLoop (e :: es) (lastT + 60)
          (timeline.map (fun t => (t, none))))) = _
    rw [hlast]
    show some (intervalLoop (e :: es) (lastT + 60)
        (timeline.map (fun t => (t, none)))) = _
    rw [intervalLoop_eq_map, List.map_map]
    refine congrArg some (List.map_congr_left (fun t htm => ?_))
    have hle : t ≤ lastT := le_getLast_of_sorted timeline lastT ht hlast t htm
    simp only [Function.comp_apply]
    rw [slotValue_eq_asofLast (e :: es) (lastT + 60) t he (by omega)]

/-- If no event is at or before `t2`, none is at or before any earlier `t`. -/
theorem asofLast_none_mono {α : Type} (events : List (Int × α)) {t t2 : Int}
    (h : t ≤ t2) (h2 : asofLast events t2 = none) : asofLast events t = none := by
  simp only [asofLast, Option.map_eq_none', List.getLast?_eq_none_iff,
    List.filter_eq_nil_iff, decide_eq_true_eq] at h2 ⊢
  intro e he hle
  exact h2 e he (le_trans hle h)

theorem asofLast_eq_none_iff {α : Type} (events : List (Int × α)) (t : Int) :
    asofLast events t = none ↔ ∀ e ∈ events, t < e.1 := by
  simp only [asofLast, Option.map_eq_none', List.getLast?_eq_none_iff,
    List.filter_eq_nil_iff, decide_eq_true_eq]
  constructor
  · intro h e he
    exact not_le.mp (h e he)
  · intro h e he
    exact not_le.mpr (h e he)

/-- A value returned by the as-of lookup on an ascending event sequence comes
from an actual event released at or before `t`, and from the latest such. -/
theorem asofLast_spec_some {α : Type} (events : List (Int × α)) (t : Int) (v : α)
    (he : events.Pairwise (fun a b => a.1 < b.1))
    (h : asofLast events t = some v) :
    ∃ r : Int, (r, v) ∈ events ∧ r ≤ t ∧
      ∀ e ∈ events, e.1 ≤ t → e.1 ≤ r := by
  simp only [asofLast, Option.map_eq_some'] at h
  obtain ⟨z, hz, hzv⟩ := h
  have hmem : z ∈ events.filter (fun e => decide (e.1 ≤ t)) := mem_of_getLast?_eq _ _ hz
  have hz1 : z ∈ events := List.mem_of_mem_filter hmem
  have hz2 : z.1 ≤ t := by
    have := List.of_mem_filter hmem
    simpa using this
  refine ⟨z.1, ?_, hz2, ?_⟩
  · have : (z.1, v) = z := by
      obtain ⟨z1, z2⟩ := z
      simp only at hzv
      simp [hzv]
    rw [this]
    exact hz1
  · intro e hee het
    have hef : e ∈ events.filter (fun e => decide (e.1 ≤ t)) :=
      List.mem_filter.mpr ⟨hee, by simpa using het⟩
    exact fst_le_getLast_of_sorted _ z (he.filter _) hz e hef

/-- Forward fill leaves the as-of column of ascending inputs unchanged
(its absent slots form a prefix). -/
theorem ffillLoop_map_asof {α : Type} (events : List (Int × α)) :
    ∀ (tl : List Int) (c : Option α),
      tl.Pairwise (fun a b => a < b) →
      (c.isSome = true → ∀ t ∈ tl, (asofLast events t).isSome = true) →
      ffillLoop c (tl.map (fun t => (t, asofLast events t))) =
        tl.map (fun t => (t, asofLast events t))
  | [], c, _, _ => rfl
  | t :: rest, c, hp, hc => by
    rcases List.pairwise_cons.mp hp with ⟨hhead, htail⟩
    cases hasof : asofLast events t with
    | some v =>
      simp only [List.map_cons, hasof, ffillLoop]
      rw [ffillLoop_map_asof events rest (some v) htail ?_]
      intro _ t2 ht2
      cases h2 : asofLast events t2 with
      | some w => rfl
      | none =>
        have : asofLast events t = none :=
          asofLast_none_mono events (le_of_lt (hhead t2 ht2)) h2
        rw [hasof] at this
        exact absurd this (by simp)
    | none =>
      have hcn : c = none := by
        cases c with
        | none => rfl
        | some w =>
          have := hc (by simp) t (List.mem_cons_self _ _)
          rw [hasof] at this
          exact absurd this (by simp)
      subst hcn
      simp only [List.map_cons, hasof, ffillLoop]
      rw [ffillLoop_map_asof events rest none htail (by intro h; simp at h)]

/-- The forward-fill aligners on ascending inputs return exactly the as-of
column: forward fill is a no-op because the absent slots form a prefix. -/
theorem align_ffill_spec {α : Type} (events : List (Int × α)) (timeline : List Int)
    (he : events.Pairwise (fun a b => a.1 < b.1))
    (ht : timeline.Pairwise (fun a b => a < b))
    (hne : timeline ≠ [] ∨ events = []) :
    align_cpi_to_hours events timeline =
      some (timeline.map (fun t => (t, asofLast events t))) := by
  unfold align_cpi_to_hours
  rw [alignCore_eq events timeline he ht hne, Option.map_some']
  unfold ffillCol
  rw [ffillLoop_map_asof events timeline none ht (by intro h; simp at h)]

/-- The FOMC aligner on ascending inputs returns the backward fill of the
as-of column. -/
theorem align_bfill_spec {α : Type} (events : List (Int × α)) (timeline : List Int)
    (he : events.Pairwise (fun a b => a.1 < b.1))
    (ht : timeline.Pairwise (fun a b => a < b))
    (hne : timeline ≠ [] ∨ events = []) :
    align_rate_to_hours events timeline =
      some (bfillCol (timeline.map (fun t => (t, asofLast events t)))) := by
  unfold align_rate_to_hours
  rw [alignCore_eq events timeline he ht hne, Option.map_some']

theorem ffillLoop_all_none {α : Type} :
    ∀ (col : List (Int × Option α)) (c : Option α),
      (∀ p ∈ col, p.2 = none) →
      ffillLoop c col = col.map (fun p => (p.1, c))
  | [], _, _ => rfl
  | (t, v) :: rest, c, h => by
    have hv : v = none := h (t, v) (List.mem_cons_self _ _)
    subst hv
    simp only [ffillLoop, List.map_cons]
    rw [ffillLoop_all_none rest c (fun p hp => h p (List.mem_cons_of_mem _ hp))]

/-- The overwrite fold of `merge_asof` computes the last element of the
filtered list, for any accumulator. -/
theorem asofFold_acc {α : Type} :
    ∀ (l : List (Int × α)) (acc : Option α) (t : Int),
      l.foldl (fun acc e => if e.1 ≤ t then some e.2 else acc) acc =
        (match (l.filter (fun e => decide (e.1 ≤ t))).getLast? with
          | some z => some z.2
          | none => acc)
  | [], _, _ => rfl
  | (r, v) :: rest, acc, t => by
    show List.foldl _ (if r ≤ t then some v else acc) rest = _
    rw [asofFold_acc rest (if r ≤ t then some v else acc) t]
    by_cases hr : r ≤ t
    · rw [List.filter_cons_of_pos (by simpa using hr)]
      cases hfil : (rest.filter (fun e => decide (e.1 ≤ t))).getLast? with
      | none =>
        have hfil2 : rest.filter (fun e => decide (e.1 ≤ t)) = [] :=
          List.getLast?_eq_none_iff.mp hfil
        rw [hfil2]
        simp [hr]
      | some z =>
        obtain ⟨q, qs, hq⟩ :
            ∃ q qs, rest.filter (fun e => decide (e.1 ≤ t)) = q :: qs := by
          cases hl : rest.filter (fun e => decide (e.1 ≤ t)) with
          | nil =>
            rw [hl] at hfil
            simp at hfil
          | cons q qs => exact ⟨q, qs, rfl⟩
        rw [hq] at hfil ⊢
        rw [List.getLast?_cons_cons, hfil]
    · rw [List.filter_cons_of_neg (by simpa using hr), if_neg hr]

/-- The `merge_asof` backward lookup agrees with the as-of value. -/
theorem asofFold_eq_asofLast {α : Type} (events : List (Int × α)) (t : Int) :
    asofFold events t = asofLast events t := by
  unfold asofFold asofLast
  rw [asofFold_acc events none t]
  cases (events.filter (fun e => decide (e.1 ≤ t))).getLast? with
  | none => rfl
  | some z => rfl

/-- On ascending inputs the GDP aligner is the backward fill of the as-of
column: the sorts are the identity, `merge_asof` produces the as-of column,
whose absent slots form a prefix, so `ffill` is a no-op and `bfill` remains
— the same column the FOMC aligner materializes. -/
theorem align_to_hourly_spec {α : Type} (events : List (Int × α))
    (timeline : List Int)
    (he : events.Pairwise (fun a b => a.1 < b.1))
    (ht : timeline.Pairwise (fun a b => a < b)) :
    align_to_hourly events timeline =
      bfillCol (timeline.map (fun t => (t, asofLast events t))) := by
  have htl2 : timeline.Pairwise (fun a b => decide (a ≤ b) = true) :=
    ht.imp (fun h => by simpa using le_of_lt h)
  have hev2 : events.Pairwise (fun a b => decide (a.1 ≤ b.1) = true) :=
    he.imp (fun h => by simpa using le_of_lt h)
  simp only [align_to_hourly]
  rw [List.mergeSort_of_sorted htl2, List.mergeSort_of_sorted hev2]
  simp only [asofFold_eq_asofLast]
  have hff : ffillCol (timeline.map (fun t => (t, asofLast events t))) =
      timeline.map (fun t => (t, asofLast events t)) := by
    unfold ffillCol
    exact ffillLoop_map_asof events timeline none ht (by intro h; simp at h)
  rw [hff]

/-- C1 (counterexample): the claim says `align` never assigns to `t` a value
from an event with `release_instant > t`.  Both backward-filling aligners —
the FOMC one and GDP's `align_to_hourly` — violate this at leading timeline
instants: with the single event released at instant 600, the timeline
instant 0 — at which no event qualifies (`asofLast` is absent) — receives
the value released at 600, via the final backward fill. -/
theorem rate_aligner_lookahead_at_leading_slot :
    (align_rate_to_hours [((600 : Int), (1 : Int))] [0, 600] =
      some [(0, some 1), (600, some 1)])
    ∧ (align_to_hourly [((600 : Int), (1 : Int))] [0, 600] =
      [(0, some 1), (600, some 1)])
    ∧ asofLast [((600 : Int), (1 : Int))] 0 = none := by
  refine ⟨by decide, ?_, by decide⟩
  rw [align_to_hourly_spec [((600 : Int), (1 : Int))] [0, 600]
    (by decide) (by decide)]
  decide

/-- C1 (amended): on ascending events and an ascending timeline (with the
timeline nonempty whenever events exist), the forward-fill aligners
(CPI/NFP/PPI) return exactly the as-of column — each instant `t` is paired
with the value of the event with the greatest `release_instant ≤ t`, and is
absent when every event is strictly after `t` — while the backward-fill
aligners, the FOMC one and GDP's `align_to_hourly`, return the backward
fill of that same column, which additionally back-fills instants before
the first event from a later event's value by design. -/
theorem asof_correctness_of_aligners {α : Type} (events : List (Int × α))
    (timeline : List Int)
    (he : events.Pairwise (fun a b => a.1 < b.1))
    (ht : timeline.Pairwise (fun a b => a < b))
    (hne : timeline ≠ [] ∨ events = []) :
    align_cpi_to_hours events timeline
      = some (timeline.map (fun t => (t, asofLast events t)))
    ∧ align_nfp_to_hours events timeline
      = some (timeline.map (fun t => (t, asofLast events t)))
    ∧ align_ppi_to_hours events timeline
      = some (timeline.map (fun t => (t, asofLast events t)))
    ∧ align_rate_to_hours events timeline
      = some (bfillCol (timeline.map (fun t => (t, asofLast events t))))
    ∧ align_to_hourly events timeline
      = bfillCol (timeline.map (fun t => (t, asofLast events t)))
    ∧ (∀ (t : Int) (v : α), asofLast events t = some v →
        ∃ r : Int, (r, v) ∈ events ∧ r ≤ t ∧ ∀ e ∈ events, e.1 ≤ t → e.1 ≤ r)
    ∧ (∀ t : Int, asofLast events t = none ↔ ∀ e ∈ events, t < e.1) := by
  refine ⟨align_ffill_spec events timeline he ht hne,
    align_ffill_spec events timeline he ht hne,
    align_ffill_spec events timeline he ht hne,
    align_bfill_spec events timeline he ht hne,
    align_to_hourly_spec events timeline he ht,
    fun t v h => asofLast_spec_some events t v he h,
    fun t => asofLast_eq_none_iff events t⟩

theorem asof_correctness_of_aligners_witness :
    (align_cpi_to_hours [((600 : Int), (1 : Int)), (1200, 2)] [0, 600, 1200] =
      some [(0, none), (600, some 1), (1200, some 2)])
    ∧ (align_to_hourly [((600 : Int), (1 : Int)), (1200, 2)] [0, 600, 1200] =
      [(0, some 1), (600, some 1), (1200, some 2)]) := by
  have h := asof_correctness_of_aligners [((600 : Int), (1 : Int)), (1200, 2)]
    [0, 600, 1200] (by decide) (by decide) (by decide)
  constructor
  · rw [h.1]
    decide
  · rw [h.2.2.2.2.1]
    decide

/-- C9: empty observation/event input is a valid, trivial input — schedulers
return empty schedules, the aligners return one fully-absent entry per
timeline point, and aggregation returns an empty table; nothing fails. -/
theorem empty_input_not_error :
    get_cpi_release_schedule [] = []
    ∧ get_ppi_release_schedule [] = []
    ∧ get_nfp_release_schedule [] = []
    ∧ get_fomc_decision_times ([] : List ((Nat × Nat × Nat) × Int)) = []
    ∧ (∀ timeline : List Int,
        align_cpi_to_hours ([] : List (Int × Int)) timeline
          = some (timeline.map (fun t => (t, none)))
        ∧ align_rate_to_hours ([] : List (Int × Int)) timeline
          = some (timeline.map (fun t => (t, none))))
    ∧ (∀ s e : Nat, aggregate_to_hourly [] s e = []) := by
  have hbf : ∀ (timeline : List Int),
      bfillCol (timeline.map (fun t => (t, (none : Option Int)))) =
        timeline.map (fun t => (t, none)) := by
    intro timeline
    unfold bfillCol
    rw [ffillLoop_all_none _ none (by
      intro p hp
      obtain ⟨t, _, hpt⟩ := List.mem_map.mp (List.mem_reverse.mp hp)
      rw [← hpt])]
    rw [List.map_reverse, List.reverse_reverse, List.map_map]
    rfl
  have hff : ∀ (timeline : List Int),
      ffillCol (timeline.map (fun t => (t, (none : Option Int)))) =
        timeline.map (fun t => (t, none)) := by
    intro timeline
    unfold ffillCol
    rw [ffillLoop_all_none _ none (by
      intro p hp
      obtain ⟨t, _, hpt⟩ := List.mem_map.mp hp
      rw [← hpt])]
    rw [List.map_map]
    rfl
  refine ⟨rfl, rfl, rfl, rfl, fun timeline => ⟨?_, ?_⟩, fun s e => rfl⟩
  · show (alignCore [] timeline).map ffillCol = _
    rw [show alignCore ([] : List (Int × Int)) timeline =
      some (timeline.map (fun t => (t, none))) from rfl]
    rw [Option.map_some', hff]
  · show (alignCore [] timeline).map bfillCol = _
    rw [show alignCore ([] : List (Int × Int)) timeline =
      some (timeline.map (fun t => (t, none))) from rfl]
    rw [Option.map_some', hbf]

/-- C10: the interval aligners read `hourly_index[-1]` as soon as there is
at least one event, so they return normally exactly when the timeline is
nonempty or the event list is empty, and fail (modelled by `none`) exactly
when the timeline is empty and an event exists; the NFP and PPI aligners
run the identical computation as the CPI one. -/
theorem aligners_need_timeline_last {α : Type} (events : List (Int × α))
    (timeline : List Int) :
    ((align_cpi_to_hours events timeline).isSome = true
      ↔ (timeline ≠ [] ∨ events = []))
    ∧ ((align_rate_to_hours events timeline).isSome = true
      ↔ (timeline ≠ [] ∨ events = []))
    ∧ align_nfp_to_hours events timeline = align_cpi_to_hours events timeline
    ∧ align_ppi_to_hours events timeline = align_cpi_to_hours events timeline := by
  have hcore : (alignCore events timeline).isSome = true
      ↔ (timeline ≠ [] ∨ events = []) := by
    cases events with
    | nil => simp [alignCore]
    | cons e es =>
      cases htl : timeline.getLast? with
      | none =>
        have : timeline = [] := List.getLast?_eq_none_iff.mp htl
        subst this
        simp [alignCore]
      | some z =>
        have : timeline ≠ [] := by
          intro hc
          subst hc
          simp at htl
        simp only [alignCore, htl]
        simp [this]
  refine ⟨?_, ?_, rfl, rfl⟩
  · show ((alignCore events timeline).map ffillCol).isSome = true ↔ _
    rw [Option.isSome_map']
    exact hcore
  · show ((alignCore events timeline).map bfillCol).isSome = true ↔ _
    rw [Option.isSome_map']
    exact hcore

theorem intLeB_trans : ∀ (a b c : Int), decide (a ≤ b) = true →
    decide (b ≤ c) = true → decide (a ≤ c) = true := by
  intro a b c hab hbc
  simp only [decide_eq_true_eq] at hab hbc ⊢
  omega

theorem intLeB_total : ∀ (a b : Int), (decide (a ≤ b) || decide (b ≤ a)) = true := by
  intro a b
  simp only [Bool.or_eq_true, decide_eq_true_eq]
  omega

/-- Sorting an integer list by merge sort yields the unique ascending
arrangement of its elements. -/
theorem mergeSort_int_eq (l l2 : List Int) (hp : l.Perm l2)
    (hs : l2.Pairwise (fun a b => a ≤ b)) :
    l.mergeSort (fun a b => decide (a ≤ b)) = l2 := by
  have h1 : (l.mergeSort (fun a b => decide (a ≤ b))).Perm l2 :=
    (List.mergeSort_perm l _).trans hp
  have h2 : (l.mergeSort (fun a b => decide (a ≤ b))).Pairwise
      (fun a b => a ≤ b) := by
    have hms := List.sorted_mergeSort intLeB_trans intLeB_total l
    exact hms.imp (by intro a b h; simpa using h)
  exact List.eq_of_perm_of_sorted h1 h2 hs

/-- C3 (counterexample): called with the non-ascending timeline `[1200, 0]`,
the GDP aligner raises nothing — it silently re-sorts and returns a normal
result (the claim asserts it must fail fast with `InvalidOrderingError`;
no such check or exception exists anywhere in the code). -/
theorem align_accepts_unsorted_input :
    align_to_hourly [((600 : Int), (5 : Int))] [1200, 0] =
      [(0, some 5), (1200, some 5)] := by
  simp only [align_to_hourly]
  rw [mergeSort_int_eq [1200, 0] [0, 1200] (by decide) (by decide),
    List.mergeSort_singleton]
  decide

/-- C3 (amended): `align` performs no ordering validation and never raises:
the GDP aligner sorts its inputs as its first step (so pre-sorting the
timeline does not change its output — silent correction, not failure), and
the interval aligners return a result for any input ordering whenever the
timeline is nonempty. -/
theorem align_no_ordering_check {α : Type} (events : List (Int × α))
    (timeline : List Int) :
    align_to_hourly events timeline
      = align_to_hourly events (timeline.mergeSort (fun a b => decide (a ≤ b)))
    ∧ (timeline ≠ [] →
        (align_cpi_to_hours events timeline).isSome = true
        ∧ (align_rate_to_hours events timeline).isSome = true) := by
  constructor
  · simp only [align_to_hourly]
    rw [List.mergeSort_of_sorted (List.sorted_mergeSort intLeB_trans intLeB_total timeline)]
  · intro htl
    obtain ⟨z, hz⟩ : ∃ z, timeline.getLast? = some z := by
      cases hg : timeline.getLast? with
      | none => exact absurd (List.getLast?_eq_none_iff.mp hg) htl
      | some z => exact ⟨z, rfl⟩
    constructor
    · show ((alignCore events timeline).map ffillCol).isSome = true
      rw [Option.isSome_map']
      cases events with
      | nil => rfl
      | cons e es =>
        simp only [alignCore, hz]
        rfl
    · show ((alignCore events timeline).map bfillCol).isSome = true
      rw [Option.isSome_map']
      cases events with
      | nil => rfl
      | cons e es =>
        simp only [alignCore, hz]
        rfl

theorem align_no_ordering_check_witness :
    (align_cpi_to_hours [((600 : Int), (1 : Int))] [0]).isSome = true ∧
    (align_rate_to_hours [((600 : Int), (1 : Int))] [0]).isSome = true :=
  (align_no_ordering_check [((600 : Int), (1 : Int))] [0]).2 (by decide)

/-- Pair each list element with its immediate predecessor (`none` for the
element following no predecessor). -/
def withPrev {β : Type} : List β → Option β → List (Option β × β)
  | [], _ => []
  | x :: xs, p => (p, x) :: withPrev xs (some x)

theorem fomcLoop_eq_filter {α : Type} [DecidableEq α] :
    ∀ (xs : List ((Nat × Nat × Nat) × α)) (p : (Nat × Nat × Nat) × α),
      fomcLoop (some p.2) xs =
        ((withPrev xs (some p)).filter
            (fun q => decide (q.1 = none ∨ ¬ q.1.map Prod.snd = some q.2.2))).map
          (fun q => (nyToUtcMinutes q.2.1.1 q.2.1.2.1 q.2.1.2.2 14 0, q.2.2))
  | [], _ => rfl
  | (d, r) :: xs, p => by
    by_cases h : p.2 = r
    · have hcond : ¬ ((some p.2 : Option α) = none ∨ ¬ (some p.2 : Option α) = some r) := by
        simp [h]
      simp only [fomcLoop, if_neg hcond]
      rw [withPrev, List.filter_cons_of_neg (by simp [h])]
      have hstep : fomcLoop (some p.2) xs = fomcLoop (some r) xs := by rw [h]
      rw [hstep, fomcLoop_eq_filter xs (d, r)]
    · have hcond : (some p.2 : Option α) = none ∨ ¬ (some p.2 : Option α) = some r :=
        Or.inr (by simp [h])
      simp only [fomcLoop, if_pos hcond]
      rw [withPrev, List.filter_cons_of_pos (by simp [h]), List.map_cons]
      congr 1
      exact fomcLoop_eq_filter xs (d, r)

/-- C7: the FOMC schedule emits an event for an observation exactly when it
is the first observation or its rate differs from the immediately preceding
observation's rate, the event instant is 14:00 America/New_York on that
date converted to UTC, and the event value is the new rate.  (The loop's
`prev_rate` is only updated on emission, but an unemitted observation's
rate equals `prev_rate`, so the carried value always equals the preceding
observation's rate.) -/
theorem fomc_change_triggered {α : Type} [DecidableEq α]
    (series : List ((Nat × Nat × Nat) × α)) :
    get_fomc_decision_times series =
      ((withPrev series none).filter
          (fun q => decide (q.1 = none ∨ ¬ q.1.map Prod.snd = some q.2.2))).map
        (fun q => (nyToUtcMinutes q.2.1.1 q.2.1.2.1 q.2.1.2.2 14 0, q.2.2)) := by
  cases series with
  | nil => rfl
  | cons x xs =>
    obtain ⟨d, r⟩ := x
    show fomcLoop none ((d, r) :: xs) = _
    have hcond : (none : Option α) = none ∨ ¬ (none : Option α) = some r := Or.inl rfl
    have hunfold : fomcLoop none ((d, r) :: xs) =
        if (none : Option α) = none ∨ ¬ (none : Option α) = some r then
          (nyToUtcMinutes d.1 d.2.1 d.2.2 14 0, r) :: fomcLoop (some r) xs
        else fomcLoop none xs := rfl
    rw [hunfold, if_pos hcond]
    rw [withPrev, List.filter_cons_of_pos (by simp), List.map_cons]
    congr 1
    exact fomcLoop_eq_filter xs (d, r)

-- The FOMC schedule on a concrete series: emitted at the first observation
-- and at each change only.
example :
    get_fomc_decision_times
      [((2023, 1, 3), (450 : Int)), ((2023, 1, 4), 450), ((2023, 2, 1), 475),
       ((2023, 2, 2), 475)] =
      [(nyToUtcMinutes 2023 1 3 14 0, 450), (nyToUtcMinutes 2023 2 1 14 0, 475)] := by
  decide

/-!
## Calendar lemmas

The day-number function is linear in the day component, which gives the
weekday-of-successor law used to settle the weekend-roll and first-Friday
loops, and it is strictly monotone across months, which gives scheduler
monotonicity.
-/

theorem dayNumber_succ_day (y m d : Nat) (hd : 1 ≤ d) :
    dayNumber y m (d + 1) = dayNumber y m d + 1 := by
  simp only [dayNumber]
  split_ifs <;> omega

theorem pyWeekday_succ (y m d : Nat) (hd : 1 ≤ d) :
    pyWeekday y m (d + 1) = (pyWeekday y m d + 1) % 7 := by
  simp only [pyWeekday]
  rw [dayNumber_succ_day y m d hd]
  omega

theorem pyWeekday_lt_7 (y m d : Nat) : pyWeekday y m d < 7 := by
  simp only [pyWeekday]
  omega

theorem rollOffWeekend_stop (fuel y m d : Nat) (h : pyWeekday y m d < 5) :
    rollOffWeekend (fuel + 1) y m d = d := by
  simp only [rollOffWeekend]
  rw [if_neg (by omega)]

theorem rollOffWeekend_step (fuel y m d : Nat) (h : 5 ≤ pyWeekday y m d) :
    rollOffWeekend (fuel + 1) y m d = rollOffWeekend fuel y m (d + 1) := by
  simp only [rollOffWeekend]
  rw [if_pos h]

/-- Full behaviour of the weekend-shift loop: it never moves backward, moves
at most two days, lands on a weekday, skips only weekend days, and sends a
Saturday target to target + 2 (the following Monday). -/
theorem shiftToWeekday_spec (y m d : Nat) (hd : 1 ≤ d) :
    d ≤ shiftToWeekday y m d
    ∧ shiftToWeekday y m d ≤ d + 2
    ∧ pyWeekday y m (shiftToWeekday y m d) < 5
    ∧ (∀ k, d ≤ k → k < shiftToWeekday y m d → 5 ≤ pyWeekday y m k)
    ∧ (pyWeekday y m d = 5 →
        shiftToWeekday y m d = d + 2 ∧ pyWeekday y m (d + 2) = 0) := by
  have h7 := pyWeekday_lt_7 y m d
  by_cases h5 : pyWeekday y m d < 5
  · have hs : shiftToWeekday y m d = d := rollOffWeekend_stop 6 y m d h5
    refine ⟨by omega, by omega, by rw [hs]; exact h5, ?_, ?_⟩
    · intro k hk1 hk2
      rw [hs] at hk2
      omega
    · intro hsat
      omega
  · have hsucc1 : pyWeekday y m (d + 1) = (pyWeekday y m d + 1) % 7 :=
      pyWeekday_succ y m d hd
    by_cases h6 : pyWeekday y m d = 5
    · have h1 : pyWeekday y m (d + 1) = 6 := by rw [hsucc1, h6]
      have hsucc2 : pyWeekday y m (d + 2) = (pyWeekday y m (d + 1) + 1) % 7 :=
        pyWeekday_succ y m (d + 1) (by omega)
      have h2 : pyWeekday y m (d + 2) = 0 := by rw [hsucc2, h1]
      have hs : shiftToWeekday y m d = d + 2 := by
        show rollOffWeekend 7 y m d = d + 2
        rw [rollOffWeekend_step 6 y m d (by omega),
          rollOffWeekend_step 5 y m (d + 1) (by omega),
          rollOffWeekend_stop 4 y m (d + 2) (by omega)]
      refine ⟨by omega, by omega, by rw [hs]; omega, ?_, fun _ => ⟨hs, h2⟩⟩
      intro k hk1 hk2
      rw [hs] at hk2
      have : k = d ∨ k = d + 1 := by omega
      rcases this with rfl | rfl <;> omega
    · have h6' : pyWeekday y m d = 6 := by omega
      have h1 : pyWeekday y m (d + 1) = 0 := by rw [hsucc1, h6']
      have hs : shiftToWeekday y m d = d + 1 := by
        show rollOffWeekend 7 y m d = d + 1
        rw [rollOffWeekend_step 6 y m d (by omega),
          rollOffWeekend_stop 5 y m (d + 1) (by omega)]
      refine ⟨by omega, by omega, by rw [hs]; omega, ?_, by intro hsat; omega⟩
      intro k hk1 hk2
      rw [hs] at hk2
      have : k = d := by omega
      subst this
      omega

theorem rollToFriday_stop (fuel y m d : Nat) (h : pyWeekday y m d = 4) :
    rollToFriday (fuel + 1) y m d = d := by
  simp only [rollToFriday]
  rw [if_pos h]

theorem rollToFriday_step (fuel y m d : Nat) (h : pyWeekday y m d ≠ 4) :
    rollToFriday (fuel + 1) y m d = rollToFriday fuel y m (d + 1) := by
  simp only [rollToFriday]
  rw [if_neg h]

/-- Full behaviour of the advance-to-Friday loop, parameterized by the
number of days `o` still to walk: starting at day `d` with
`(11 - weekday d) % 7 = o` and enough fuel, the loop stops at `d + o`,
which is a Friday, and no day strictly before it is one. -/
theorem rollToFriday_spec :
    ∀ (o y m d fuel : Nat), 1 ≤ d → o < fuel →
      (11 - pyWeekday y m d) % 7 = o →
      rollToFriday fuel y m d = d + o
      ∧ pyWeekday y m (d + o) = 4
      ∧ (∀ k, k < o → pyWeekday y m (d + k) ≠ 4)
  | 0, y, m, d, fuel, hd, hfuel, ho => by
    have hw := pyWeekday_lt_7 y m d
    have h4 : pyWeekday y m d = 4 := by omega
    cases fuel with
    | zero => omega
    | succ f =>
      exact ⟨by rw [rollToFriday_stop f y m d h4]; omega, by simpa using h4,
        fun k hk => absurd hk (by omega)⟩
  | o + 1, y, m, d, fuel, hd, hfuel, ho => by
    have hw := pyWeekday_lt_7 y m d
    have hne : pyWeekday y m d ≠ 4 := by
      intro h4
      rw [h4] at ho
      omega
    have hsucc : pyWeekday y m (d + 1) = (pyWeekday y m d + 1) % 7 :=
      pyWeekday_succ y m d hd
    have ho2 : (11 - pyWeekday y m (d + 1)) % 7 = o := by
      rw [hsucc]
      omega
    cases fuel with
    | zero => omega
    | succ f =>
      obtain ⟨ih1, ih2, ih3⟩ :=
        rollToFriday_spec o y m (d + 1) f (by omega) (by omega) ho2
      refine ⟨?_, ?_, ?_⟩
      · rw [rollToFriday_step f y m d hne, ih1]
        omega
      · rw [show d + (o + 1) = d + 1 + o by omega]
        exact ih2
      · intro k hk
        cases k with
        | zero => simpa using hne
        | succ j =>
          rw [show d + (j + 1) = d + 1 + j by omega]
          exact ih3 j (by omega)

/-- Strict monotonicity of the day number across (year, month) in
lexicographic order, for day components inside any month (`d1 ≤ 28`). -/
theorem dayNumber_mono (y1 m1 d1 y2 m2 d2 : Nat)
    (hy1 : 1 ≤ y1)
    (hm1a : 1 ≤ m1) (hm1b : m1 ≤ 12) (hm2a : 1 ≤ m2) (hm2b : m2 ≤ 12)
    (hd1a : 1 ≤ d1) (hd1b : d1 ≤ 28) (hd2a : 1 ≤ d2)
    (hlex : y1 < y2 ∨ (y1 = y2 ∧ m1 < m2)) :
    dayNumber y1 m1 d1 < dayNumber y2 m2 d2 := by
  simp only [dayNumber]
  split_ifs <;> omega

/-- The civil-to-UTC conversion is strictly monotone across calendar dates
(the timezone offset varies by at most one hour, a calendar day is 24). -/
theorem nyToUtcMinutes_mono (y1 m1 d1 y2 m2 d2 hh mi : Nat)
    (hdn : dayNumber y1 m1 d1 < dayNumber y2 m2 d2) :
    nyToUtcMinutes y1 m1 d1 hh mi < nyToUtcMinutes y2 m2 d2 hh mi := by
  simp only [nyToUtcMinutes, nyOffsetMin]
  split_ifs <;> omega

/-- The month + 1 / year-roll step preserves strict lexicographic order of
(year, month) pairs with months in `1..12`. -/
theorem nextMonth_lex (y1 m1 y2 m2 : Nat) (h1a : 1 ≤ m1) (h1b : m1 ≤ 12)
    (h2a : 1 ≤ m2) (h2b : m2 ≤ 12)
    (h : y1 < y2 ∨ (y1 = y2 ∧ m1 < m2)) :
    (if m1 + 1 = 13 then y1 + 1 else y1) < (if m2 + 1 = 13 then y2 + 1 else y2)
    ∨ ((if m1 + 1 = 13 then y1 + 1 else y1) = (if m2 + 1 = 13 then y2 + 1 else y2)
      ∧ (if m1 + 1 = 13 then 1 else m1 + 1) < (if m2 + 1 = 13 then 1 else m2 + 1)) := by
  split_ifs <;> omega

theorem nextMonth_bounds (y m : Nat) (hy : 1 ≤ y) (h1 : 1 ≤ m) (h2 : m ≤ 12) :
    1 ≤ (if m + 1 = 13 then y + 1 else y)
    ∧ 1 ≤ (if m + 1 = 13 then 1 else m + 1)
    ∧ (if m + 1 = 13 then 1 else m + 1) ≤ 12 := by
  split_ifs <;> omega

/-- Pointwise monotonicity of the CPI per-observation release instant. -/
theorem cpi_release_for_mono (y1 m1 y2 m2 : Nat) (hy1 : 1 ≤ y1)
    (h1a : 1 ≤ m1) (h1b : m1 ≤ 12) (h2a : 1 ≤ m2) (h2b : m2 ≤ 12)
    (hle : y1 < y2 ∨ (y1 = y2 ∧ m1 ≤ m2)) :
    cpi_release_for y1 m1 ≤ cpi_release_for y2 m2 := by
  by_cases heq : y1 = y2 ∧ m1 = m2
  · rw [heq.1, heq.2]
  · have hstrict : y1 < y2 ∨ (y1 = y2 ∧ m1 < m2) := by
      rcases hle with h | ⟨h, h'⟩
      · exact Or.inl h
      · refine Or.inr ⟨h, ?_⟩
        rcases Nat.lt_or_ge m1 m2 with hlt | hge
        · exact hlt
        · exact absurd ⟨h, by omega⟩ heq
    obtain ⟨hry1, hrm1a, hrm1b⟩ := nextMonth_bounds y1 m1 hy1 h1a h1b
    obtain ⟨hry2, hrm2a, hrm2b⟩ := nextMonth_bounds y2 m2 (by omega) h2a h2b
    obtain ⟨hs1a, hs1b, _, _, _⟩ := shiftToWeekday_spec
      (if m1 + 1 = 13 then y1 + 1 else y1) (if m1 + 1 = 13 then 1 else m1 + 1)
      10 (by omega)
    obtain ⟨hs2a, _, _, _, _⟩ := shiftToWeekday_spec
      (if m2 + 1 = 13 then y2 + 1 else y2) (if m2 + 1 = 13 then 1 else m2 + 1)
      10 (by omega)
    have hdn := dayNumber_mono
      (if m1 + 1 = 13 then y1 + 1 else y1) (if m1 + 1 = 13 then 1 else m1 + 1)
      (shiftToWeekday (if m1 + 1 = 13 then y1 + 1 else y1)
        (if m1 + 1 = 13 then 1 else m1 + 1) 10)
      (if m2 + 1 = 13 then y2 + 1 else y2) (if m2 + 1 = 13 then 1 else m2 + 1)
      (shiftToWeekday (if m2 + 1 = 13 then y2 + 1 else y2)
        (if m2 + 1 = 13 then 1 else m2 + 1) 10)
      hry1 hrm1a hrm1b hrm2a hrm2b (by omega) (by omega) (by omega)
      (nextMonth_lex y1 m1 y2 m2 h1a h1b h2a h2b hstrict)
    exact le_of_lt (nyToUtcMinutes_mono _ _ _ _ _ _ 8 30 hdn)

/-- Pointwise monotonicity of the PPI per-observation release instant. -/
theorem ppi_release_for_mono (y1 m1 y2 m2 : Nat) (hy1 : 1 ≤ y1)
    (h1a : 1 ≤ m1) (h1b : m1 ≤ 12) (h2a : 1 ≤ m2) (h2b : m2 ≤ 12)
    (hle : y1 < y2 ∨ (y1 = y2 ∧ m1 ≤ m2)) :
    ppi_release_for y1 m1 ≤ ppi_release_for y2 m2 := by
  by_cases heq : y1 = y2 ∧ m1 = m2
  · rw [heq.1, heq.2]
  · have hstrict : y1 < y2 ∨ (y1 = y2 ∧ m1 < m2) := by
      rcases hle with h | ⟨h, h'⟩
      · exact Or.inl h
      · refine Or.inr ⟨h, ?_⟩
        rcases Nat.lt_or_ge m1 m2 with hlt | hge
        · exact hlt
        · exact absurd ⟨h, by omega⟩ heq
    obtain ⟨hry1, hrm1a, hrm1b⟩ := nextMonth_bounds y1 m1 hy1 h1a h1b
    obtain ⟨hry2, hrm2a, hrm2b⟩ := nextMonth_bounds y2 m2 (by omega) h2a h2b
    obtain ⟨hs1a, hs1b, _, _, _⟩ := shiftToWeekday_spec
      (if m1 + 1 = 13 then y1 + 1 else y1) (if m1 + 1 = 13 then 1 else m1 + 1)
      14 (by omega)
    obtain ⟨hs2a, _, _, _, _⟩ := shiftToWeekday_spec
      (if m2 + 1 = 13 then y2 + 1 else y2) (if m2 + 1 = 13 then 1 else m2 + 1)
      14 (by omega)
    have hdn := dayNumber_mono
      (if m1 + 1 = 13 then y1 + 1 else y1) (if m1 + 1 = 13 then 1 else m1 + 1)
      (shiftToWeekday (if m1 + 1 = 13 then y1 + 1 else y1)
        (if m1 + 1 = 13 then 1 else m1 + 1) 14)
      (if m2 + 1 = 13 then y2 + 1 else y2) (if m2 + 1 = 13 then 1 else m2 + 1)
      (shiftToWeekday (if m2 + 1 = 13 then y2 + 1 else y2)
        (if m2 + 1 = 13 then 1 else m2 + 1) 14)
      hry1 hrm1a hrm1b hrm2a hrm2b (by omega) (by omega) (by omega)
      (nextMonth_lex y1 m1 y2 m2 h1a h1b h2a h2b hstrict)
    exact le_of_lt (nyToUtcMinutes_mono _ _ _ _ _ _ 8 30 hdn)

/-- Pointwise monotonicity of the NFP per-observation release instant. -/
theorem nfp_release_for_mono (y1 m1 y2 m2 : Nat) (hy1 : 1 ≤ y1)
    (h1a : 1 ≤ m1) (h1b : m1 ≤ 12) (h2a : 1 ≤ m2) (h2b : m2 ≤ 12)
    (hle : y1 < y2 ∨ (y1 = y2 ∧ m1 ≤ m2)) :
    nfp_release_for y1 m1 ≤ nfp_release_for y2 m2 := by
  by_cases heq : y1 = y2 ∧ m1 = m2
  · rw [heq.1, heq.2]
  · have hstrict : y1 < y2 ∨ (y1 = y2 ∧ m1 < m2) := by
      rcases hle with h | ⟨h, h'⟩
      · exact Or.inl h
      · refine Or.inr ⟨h, ?_⟩
        rcases Nat.lt_or_ge m1 m2 with hlt | hge
        · exact hlt
        · exact absurd ⟨h, by omega⟩ heq
    obtain ⟨hry1, hrm1a, hrm1b⟩ := nextMonth_bounds y1 m1 hy1 h1a h1b
    obtain ⟨hry2, hrm2a, hrm2b⟩ := nextMonth_bounds y2 m2 (by omega) h2a h2b
    have hmod1 := Nat.mod_lt (11 - pyWeekday (if m1 + 1 = 13 then y1 + 1 else y1)
      (if m1 + 1 = 13 then 1 else m1 + 1) 1) (show 0 < 7 by omega)
    obtain ⟨hr1, _, _⟩ := rollToFriday_spec
      ((11 - pyWeekday (if m1 + 1 = 13 then y1 + 1 else y1)
        (if m1 + 1 = 13 then 1 else m1 + 1) 1) % 7)
      (if m1 + 1 = 13 then y1 + 1 else y1) (if m1 + 1 = 13 then 1 else m1 + 1)
      1 7 (by omega) (by omega) rfl
    have hmod2 := Nat.mod_lt (11 - pyWeekday (if m2 + 1 = 13 then y2 + 1 else y2)
      (if m2 + 1 = 13 then 1 else m2 + 1) 1) (show 0 < 7 by omega)
    obtain ⟨hr2, _, _⟩ := rollToFriday_spec
      ((11 - pyWeekday (if m2 + 1 = 13 then y2 + 1 else y2)
        (if m2 + 1 = 13 then 1 else m2 + 1) 1) % 7)
      (if m2 + 1 = 13 then y2 + 1 else y2) (if m2 + 1 = 13 then 1 else m2 + 1)
      1 7 (by omega) (by omega) rfl
    have hdn := dayNumber_mono
      (if m1 + 1 = 13 then y1 + 1 else y1) (if m1 + 1 = 13 then 1 else m1 + 1)
      (rollToFriday 7 (if m1 + 1 = 13 then y1 + 1 else y1)
        (if m1 + 1 = 13 then 1 else m1 + 1) 1)
      (if m2 + 1 = 13 then y2 + 1 else y2) (if m2 + 1 = 13 then 1 else m2 + 1)
      (rollToFriday 7 (if m2 + 1 = 13 then y2 + 1 else y2)
        (if m2 + 1 = 13 then 1 else m2 + 1) 1)
      hry1 hrm1a hrm1b hrm2a hrm2b (by omega) (by omega) (by omega)
      (nextMonth_lex y1 m1 y2 m2 h1a h1b h2a h2b hstrict)
    exact le_of_lt (nyToUtcMinutes_mono _ _ _ _ _ _ 8 30 hdn)

/-- C4 (counterexample): the schedulers map observations in input order and
never sort; on the valid but unsorted input `[March 2023, January 2023]`
the CPI schedule is strictly decreasing, refuting the claim that the output
is ascending for inputs that need not be pre-sorted. -/
theorem cpi_schedule_unsorted_input :
    ¬ (get_cpi_release_schedule [(2023, 3), (2023, 1)]).Pairwise
      (fun a b => a ≤ b) := by decide

/-- C4 (amended): the schedulers emit one release instant per observation in
input order; when the observations are sorted ascending by (year, month)
— as every pipeline in the repository arranges before scheduling — the
emitted release instants are ascending. -/
theorem schedule_monotone_of_sorted_input (obs : List (Nat × Nat))
    (hval : ∀ p ∈ obs, 1 ≤ p.1 ∧ 1 ≤ p.2 ∧ p.2 ≤ 12)
    (hsorted : obs.Pairwise (fun a b => a.1 < b.1 ∨ (a.1 = b.1 ∧ a.2 ≤ b.2))) :
    (get_cpi_release_schedule obs).Pairwise (fun a b => a ≤ b)
    ∧ (get_ppi_release_schedule obs).Pairwise (fun a b => a ≤ b)
    ∧ (get_nfp_release_schedule obs).Pairwise (fun a b => a ≤ b) := by
  refine ⟨?_, ?_, ?_⟩
  · unfold get_cpi_release_schedule
    rw [List.pairwise_map]
    refine hsorted.imp_of_mem ?_
    intro a b ha hb hr
    obtain ⟨ha1, ha2, ha3⟩ := hval a ha
    obtain ⟨hb1, hb2, hb3⟩ := hval b hb
    exact cpi_release_for_mono a.1 a.2 b.1 b.2 ha1 ha2 ha3 hb2 hb3 hr
  · unfold get_ppi_release_schedule
    rw [List.pairwise_map]
    refine hsorted.imp_of_mem ?_
    intro a b ha hb hr
    obtain ⟨ha1, ha2, ha3⟩ := hval a ha
    obtain ⟨hb1, hb2, hb3⟩ := hval b hb
    exact ppi_release_for_mono a.1 a.2 b.1 b.2 ha1 ha2 ha3 hb2 hb3 hr
  · unfold get_nfp_release_schedule
    rw [List.pairwise_map]
    refine hsorted.imp_of_mem ?_
    intro a b ha hb hr
    obtain ⟨ha1, ha2, ha3⟩ := hval a ha
    obtain ⟨hb1, hb2, hb3⟩ := hval b hb
    exact nfp_release_for_mono a.1 a.2 b.1 b.2 ha1 ha2 ha3 hb2 hb3 hr

theorem schedule_monotone_of_sorted_input_witness :
    (get_cpi_release_schedule [(2023, 1), (2023, 2)]).Pairwise
      (fun a b => a ≤ b) :=
  (schedule_monotone_of_sorted_input [(2023, 1), (2023, 2)]
    (by decide) (by decide)).1

/-- C5: the weekend shift used by the CPI and PPI schedulers never moves a
release date backward, lands on a weekday, advances day-by-day past weekend
days only (so it reaches the nearest following weekday), and sends a
Saturday target day to target + 2, a Monday; the CPI and PPI release
instants are built from it with target days 10 and 14. -/
theorem weekend_roll_correct (y m d : Nat) (hd : 1 ≤ d) :
    d ≤ shiftToWeekday y m d
    ∧ pyWeekday y m (shiftToWeekday y m d) < 5
    ∧ (∀ k, d ≤ k → k < shiftToWeekday y m d → 5 ≤ pyWeekday y m k)
    ∧ (pyWeekday y m d = 5 →
        shiftToWeekday y m d = d + 2 ∧ pyWeekday y m (d + 2) = 0)
    ∧ cpi_release_for y m = nyToUtcMinutes (if m + 1 = 13 then y + 1 else y)
        (if m + 1 = 13 then 1 else m + 1)
        (shiftToWeekday (if m + 1 = 13 then y + 1 else y)
          (if m + 1 = 13 then 1 else m + 1) 10) 8 30
    ∧ ppi_release_for y m = nyToUtcMinutes (if m + 1 = 13 then y + 1 else y)
        (if m + 1 = 13 then 1 else m + 1)
        (shiftToWeekday (if m + 1 = 13 then y + 1 else y)
          (if m + 1 = 13 then 1 else m + 1) 14) 8 30 := by
  obtain ⟨h1, h2, h3, h4, h5⟩ := shiftToWeekday_spec y m d hd
  exact ⟨h1, h3, h4, h5, rfl, rfl⟩

theorem weekend_roll_correct_witness :
    pyWeekday 2023 6 10 = 5 ∧ shiftToWeekday 2023 6 10 = 12
      ∧ pyWeekday 2023 6 12 = 0 := by
  have h := weekend_roll_correct 2023 6 10 (by decide)
  obtain ⟨hs, hwd⟩ := h.2.2.2.1 (by decide)
  exact ⟨by decide, hs, hwd⟩

/-- First Friday of a month, directly: day 1 plus the forward distance from
day 1's weekday to Friday (weekday 4). -/
def firstFridayOfMonth (y m : Nat) : Nat := 1 + (11 - pyWeekday y m 1) % 7

/-- C6: for an observation dated in month `(y, m)`, the NFP release instant
is 08:30 America/New_York on the first Friday of the next month (year
incremented when rolling past December), converted to UTC: the scheduled
day is a Friday, lies in `1..7`, and no earlier day of that month is a
Friday; the schedule maps each observation through this rule. -/
theorem nfp_first_friday (y m ry rm : Nat)
    (hry : ry = if m = 12 then y + 1 else y)
    (hrm : rm = if m = 12 then 1 else m + 1) :
    nfp_release_for y m = nyToUtcMinutes ry rm (firstFridayOfMonth ry rm) 8 30
    ∧ 1 ≤ firstFridayOfMonth ry rm
    ∧ firstFridayOfMonth ry rm ≤ 7
    ∧ pyWeekday ry rm (firstFridayOfMonth ry rm) = 4
    ∧ (∀ k, 1 ≤ k → k < firstFridayOfMonth ry rm → pyWeekday ry rm k ≠ 4)
    ∧ get_nfp_release_schedule [(y, m)] = [nfp_release_for y m] := by
  have hmod : (11 - pyWeekday ry rm 1) % 7 < 7 :=
    Nat.mod_lt _ (by omega)
  obtain ⟨hr1, hr2, hr3⟩ := rollToFriday_spec ((11 - pyWeekday ry rm 1) % 7)
    ry rm 1 7 (by omega) (by omega) rfl
  have heq1 : (if m + 1 = 13 then y + 1 else y) = ry := by
    rw [hry]
    split_ifs <;> omega
  have heq2 : (if m + 1 = 13 then 1 else m + 1) = rm := by
    rw [hrm]
    split_ifs <;> omega
  have hrel : nfp_release_for y m =
      nyToUtcMinutes ry rm (rollToFriday 7 ry rm 1) 8 30 := by
    simp only [nfp_release_for]
    rw [heq1, heq2]
  have hff : firstFridayOfMonth ry rm = 1 + (11 - pyWeekday ry rm 1) % 7 := rfl
  refine ⟨?_, by omega, by omega, ?_, ?_, rfl⟩
  · rw [hrel, hr1, hff]
  · rw [hff]
    exact hr2
  · intro k hk1 hk2
    rw [hff] at hk2
    have hne := hr3 (k - 1) (by omega)
    rw [show 1 + (k - 1) = k by omega] at hne
    exact hne

theorem nfp_first_friday_witness :
    nfp_release_for 2023 12
        = nyToUtcMinutes 2024 1 (firstFridayOfMonth 2024 1) 8 30
    ∧ pyWeekday 2024 1 (firstFridayOfMonth 2024 1) = 4 := by
  have h := nfp_first_friday 2023 12 2024 1 (by decide) (by decide)
  exact ⟨h.1, h.2.2.2.1⟩

-- The January 2024 first Friday is the 5th.
example : firstFridayOfMonth 2024 1 = 5 := by decide

/-!
## Aggregator lemmas

The resample-then-reindex pipeline computes, at every grid hour, exactly the
direct per-bucket aggregate: grid hours inside the ticker's resampled range
are found by the lookup, and hours outside it have empty buckets.
-/

theorem foldl_min_le_init : ∀ (xs : List Nat) (a : Nat), xs.foldl min a ≤ a
  | [], a => le_refl a
  | x :: xs, a => le_trans (foldl_min_le_init xs (min a x)) (min_le_left a x)

theorem natMinList_le : ∀ (xs : List Nat), ∀ x ∈ xs, natMinList xs ≤ x := by
  have haux : ∀ (xs : List Nat) (a : Nat), ∀ x ∈ xs, xs.foldl min a ≤ x := by
    intro xs
    induction xs with
    | nil => intro a x hx; simp at hx
    | cons y ys ih =>
      intro a x hx
      rcases List.mem_cons.mp hx with rfl | hx2
      · exact le_trans (foldl_min_le_init ys (min a x)) (min_le_right a x)
      · exact ih (min a y) x hx2
  intro xs x hx
  cases xs with
  | nil => simp at hx
  | cons y ys =>
    rcases List.mem_cons.mp hx with rfl | hx2
    · exact foldl_min_le_init ys x
    · exact haux ys y x hx2

theorem init_le_foldl_max : ∀ (xs : List Nat) (a : Nat), a ≤ xs.foldl max a
  | [], a => le_refl a
  | x :: xs, a => le_trans (le_max_left a x) (init_le_foldl_max xs (max a x))

theorem le_natMaxList : ∀ (xs : List Nat), ∀ x ∈ xs, x ≤ natMaxList xs := by
  have haux : ∀ (xs : List Nat) (a : Nat), ∀ x ∈ xs, x ≤ xs.foldl max a := by
    intro xs
    induction xs with
    | nil => intro a x hx; simp at hx
    | cons y ys ih =>
      intro a x hx
      rcases List.mem_cons.mp hx with rfl | hx2
      · exact le_trans (le_max_right a x) (init_le_foldl_max ys (max a x))
      · exact ih (max a y) x hx2
  intro xs x hx
  exact haux xs 0 x hx

theorem mem_hourRange (s e h : Nat) (hs : s % 60 = 0) (hh : h % 60 = 0) :
    h ∈ hourRange s e ↔ (s ≤ h ∧ h ≤ e) := by
  unfold hourRange
  split_ifs with hlt
  · simp only [List.not_mem_nil, false_iff]
    omega
  · rw [List.mem_map]
    constructor
    · rintro ⟨k, hk, rfl⟩
      rw [List.mem_range] at hk
      omega
    · rintro ⟨h1, h2⟩
      refine ⟨(h - s) / 60, ?_, ?_⟩
      · rw [List.mem_range]
        omega
      · omega

theorem hourRange_aligned (s e h : Nat) (hs : s % 60 = 0)
    (hmem : h ∈ hourRange s e) : h % 60 = 0 := by
  unfold hourRange at hmem
  split_ifs at hmem with hlt
  · simp at hmem
  · obtain ⟨k, _, rfl⟩ := List.mem_map.mp hmem
    omega

theorem lookup_map_self {β : Type} (f : Nat → β) :
    ∀ (l : List Nat) (h : Nat),
      (h ∈ l → (l.map (fun x => (x, f x))).lookup h = some (f h))
      ∧ (h ∉ l → (l.map (fun x => (x, f x))).lookup h = none)
  | [], h => ⟨fun hx => absurd hx (by simp), fun _ => rfl⟩
  | x :: l, h => by
    constructor
    · intro hx
      by_cases hxh : h = x
      · subst hxh
        rw [List.map_cons]
        simp [List.lookup]
      · have hmem : h ∈ l := by
          rcases List.mem_cons.mp hx with rfl | h2
          · exact absurd rfl hxh
          · exact h2
        rw [List.map_cons]
        have hbeq : (h == x) = false := by simpa using hxh
        simp only [List.lookup, hbeq]
        exact (lookup_map_self f l h).1 hmem
    · intro hx
      have hxh : ¬ h = x := fun e => hx (e ▸ List.mem_cons_self x l)
      have hnl : h ∉ l := fun e => hx (List.mem_cons_of_mem _ e)
      rw [List.map_cons]
      have hbeq : (h == x) = false := by simpa using hxh
      simp only [List.lookup, hbeq]
      exact (lookup_map_self f l h).2 hnl

theorem bucketRows_elim (rows : List NewsRow) (tk : String) (h : Nat)
    (r : NewsRow) (hr : r ∈ bucketRows rows tk h) :
    r ∈ rows ∧ r.ticker = tk ∧ floorHour r.time_published = h := by
  unfold bucketRows at hr
  have h1 := List.mem_of_mem_filter hr
  have h2 := List.of_mem_filter hr
  simp only [decide_eq_true_eq] at h2
  exact ⟨h1, h2.1, h2.2⟩

/-- Reindexing a ticker's resampled table onto any hour-aligned grid point
yields exactly the direct aggregate of that ticker's records in that hour
bucket. -/
theorem reindexCell_eq_aggCell (rows : List NewsRow) (tk : String) (h : Nat)
    (hh : h % 60 = 0) :
    reindexCell tk (resampleTicker rows tk) h = aggCell rows tk h := by
  have hfloor_mod : ∀ t : Nat, floorHour t % 60 = 0 := by
    intro t
    unfold floorHour
    omega
  unfold resampleTicker
  by_cases hts : ((rows.filter (fun r => r.ticker = tk)).map
      (fun r => r.time_published)).isEmpty = true
  · rw [if_pos hts]
    rw [List.isEmpty_iff] at hts
    have hbempty : bucketRows rows tk h = [] := by
      unfold bucketRows
      refine List.filter_eq_nil_iff.mpr ?_
      intro r hr hcond
      simp only [decide_eq_true_eq] at hcond
      have hmem : r.time_published ∈ (rows.filter (fun r => r.ticker = tk)).map
          (fun r => r.time_published) :=
        List.mem_map_of_mem _ (List.mem_filter.mpr ⟨hr, by simpa using hcond.1⟩)
      rw [hts] at hmem
      simp at hmem
    unfold reindexCell aggCell
    rw [hbempty]
    rfl
  · rw [if_neg hts]
    by_cases hmem : h ∈ hourRange
        (floorHour (natMinList ((rows.filter (fun r => r.ticker = tk)).map
          (fun r => r.time_published))))
        (floorHour (natMaxList ((rows.filter (fun r => r.ticker = tk)).map
          (fun r => r.time_published))))
    · unfold reindexCell
      rw [(lookup_map_self (fun h2 => aggCell rows tk h2) _ h).1 hmem]
    · unfold reindexCell
      rw [(lookup_map_self (fun h2 => aggCell rows tk h2) _ h).2 hmem]
      have hbempty : bucketRows rows tk h = [] := by
        cases hb : bucketRows rows tk h with
        | nil => rfl
        | cons r rs =>
          exfalso
          have hrmem : r ∈ bucketRows rows tk h := by
            rw [hb]
            exact List.mem_cons_self _ _
          obtain ⟨hr1, hr2, hr3⟩ := bucketRows_elim rows tk h r hrmem
          have htsmem : r.time_published ∈
              (rows.filter (fun r => r.ticker = tk)).map
                (fun r => r.time_published) :=
            List.mem_map_of_mem _ (List.mem_filter.mpr ⟨hr1, by simpa using hr2⟩)
          have hlow := natMinList_le _ _ htsmem
          have hhigh := le_natMaxList _ _ htsmem
          apply hmem
          rw [mem_hourRange _ _ _ (hfloor_mod _) hh]
          constructor
          · rw [← hr3]
            unfold floorHour
            omega
          · rw [← hr3]
            unfold floorHour
            omega
      unfold aggCell
      rw [hbempty]
      rfl

theorem length_filterMap_all_some {γ : Type} (f : NewsRow → Option γ) :
    ∀ (l : List NewsRow), (∀ r ∈ l, (f r).isSome = true) →
      (l.filterMap f).length = l.length
  | [], _ => rfl
  | r :: l, hall => by
    cases hf : f r with
    | none =>
      have := hall r (List.mem_cons_self _ _)
      rw [hf] at this
      simp at this
    | some v =>
      rw [List.filterMap_cons, hf]
      simp only [List.length_cons]
      rw [length_filterMap_all_some f l
        (fun q hq => hall q (List.mem_cons_of_mem _ hq))]

/-- C8 (counterexample): `news_count` is the count of non-null `url` values
(`.agg({"url": "count"})`), not the number of records: a bucket containing
one record whose `url` is missing is reported with `news_count = 0` even
though its record count is 1 (the mean fields, computed from the present
score values, are populated). -/
theorem aggregate_count_misses_null_url :
    (aggregate_to_hourly [⟨"A", 90, none, some 1, some 1, some 1⟩] 60 60).map
        (fun row => (row.Datetime, row.ticker, row.news_count))
      = [(60, "A", 0)]
    ∧ (bucketRows [⟨"A", 90, none, some 1, some 1, some 1⟩] "A" 60).length = 1 := by
  decide

/-- C8 (amended): for every ticker of the input and every grid hour, the
output contains that bucket's aggregate row, where: a bucket with zero
records has count 0 and all three mean fields absent (never 0); the count
is the number of bucket records with a non-null url — equal to the number
of records whenever every record has a url; and each mean field is the
arithmetic mean of the present values of that field over the bucket
(shown for the overall-sentiment field: when every bucket record carries
the field and the bucket is nonempty, the mean is their sum divided by the
record count). -/
theorem aggregate_bucket_semantics (rows : List NewsRow) (s e : Nat)
    (tk : String) (h : Nat)
    (htk : tk ∈ uniqueTickers rows)
    (hh : h ∈ hourRange (floorHour s) (floorHour e)) :
    aggCell rows tk h ∈ aggregate_to_hourly rows s e
    ∧ (bucketRows rows tk h = [] →
        (aggCell rows tk h).news_count = 0
        ∧ (aggCell rows tk h).overall_sentiment_mean = none
        ∧ (aggCell rows tk h).ticker_sentiment_mean = none
        ∧ (aggCell rows tk h).ticker_relevance_mean = none)
    ∧ ((∀ r ∈ bucketRows rows tk h, r.url.isSome = true) →
        (aggCell rows tk h).news_count = (bucketRows rows tk h).length)
    ∧ ((∀ r ∈ bucketRows rows tk h, r.overall_sentiment_score.isSome = true) →
        bucketRows rows tk h ≠ [] →
        (aggCell rows tk h).overall_sentiment_mean
          = some (((bucketRows rows tk h).filterMap
              (fun r => r.overall_sentiment_score)).sum
            / ((bucketRows rows tk h).length : ℚ))) := by
  have hfloor_mod : ∀ t : Nat, floorHour t % 60 = 0 := by
    intro t
    unfold floorHour
    omega
  refine ⟨?_, ?_, ?_, ?_⟩
  · have hrne : ¬ (rows.isEmpty = true) := by
      cases rows with
      | nil =>
        exfalso
        rw [show uniqueTickers ([] : List NewsRow) = [] from rfl] at htk
        simp at htk
      | cons r rs => simp
    unfold aggregate_to_hourly
    rw [if_neg hrne]
    refine List.mem_flatMap.mpr ⟨tk, htk, ?_⟩
    refine List.mem_map.mpr ⟨h, hh, ?_⟩
    exact reindexCell_eq_aggCell rows tk h
      (hourRange_aligned (floorHour s) (floorHour e) h (hfloor_mod s) hh)
  · intro hempty
    unfold aggCell
    rw [hempty]
    exact ⟨rfl, rfl, rfl, rfl⟩
  · intro hall
    simp only [aggCell]
    rw [List.filter_eq_self.mpr hall]
  · intro hall hne
    have hlen := length_filterMap_all_some
      (fun r => r.overall_sentiment_score) (bucketRows rows tk h) hall
    simp only [aggCell, meanOpt]
    rw [if_neg (by
      rw [hlen]
      intro hc
      exact hne (List.length_eq_zero.mp hc))]
    rw [hlen]

theorem aggregate_bucket_semantics_witness :
    (aggCell [⟨"A", 90, some "u", some 3, some 4, some 5⟩] "A" 60).news_count
      = (bucketRows [⟨"A", 90, some "u", some 3, some 4, some 5⟩] "A" 60).length
    ∧ aggCell [⟨"A", 90, some "u", some 3, some 4, some 5⟩] "A" 60
        ∈ aggregate_to_hourly [⟨"A", 90, some "u", some 3, some 4, some 5⟩] 60 100 := by
  have h := aggregate_bucket_semantics
    [⟨"A", 90, some "u", some 3, some 4, some 5⟩] 60 100 "A" 60
    (by decide) (by decide)
  exact ⟨h.2.2.1 (by decide), h.1⟩
